import Mathlib

/-!
Verification development for the atomic temporary-file subsystem declared in
src/basic/tmpfile-util.h.  Only the header (declarations) of the subsystem is
part of the excerpt; the implementation file is not included, so every
operation below is modelled from the specification's description of its
contract and algorithm, faithful to the spec's words.  Paths are modelled as
character lists, file contents as byte lists, and a directory tree as an
association list from paths to contents; all filesystem steps (exclusive
create, link, unlink) are atomic transitions on that state.
-/

set_option autoImplicit false

namespace TmpfileUtil

/-- A filesystem path, modelled as a list of characters. -/
abbrev Path := List Char

/-- File contents, modelled as a list of bytes. -/
abbrev Content := List Nat

/-- Error conditions of the subsystem: target/name exists, entry missing,
malformed path, and the anonymous-file capability being unsupported. -/
inductive Err where
  | eexist
  | enoent
  | einval
  | eopnotsupp
  deriving DecidableEq, Repr

/-- Filesystem namespace state: directory entries as an association list from
paths to contents. -/
abbrev FS := List (Path × Content)

/-- Look up the directory entry for a path (first match). -/
def alookup : FS → Path → Option Content
  | [], _ => none
  | (k, v) :: rest, key => if k = key then some v else alookup rest key

/-- Remove the directory entry for a path (first match), the model of unlink. -/
def aerase : FS → Path → FS
  | [], _ => []
  | (k, v) :: rest, key => if k = key then rest else (k, v) :: aerase rest key

/-- Character test used to split paths: true when the character is not the
directory separator. -/
def notSlash (c : Char) : Bool := c != '/'

/-- Split a base path into its parent directory component (with trailing
separator) and its nonempty final component; none when no parent directory
component is extractable (malformed input). -/
def splitPath (p : Path) : Option (Path × Path) :=
  if p.reverse.takeWhile notSlash = [] ∨ p.reverse.dropWhile notSlash = [] then none
  else some ((p.reverse.dropWhile notSlash).reverse, (p.reverse.takeWhile notSlash).reverse)

/-- The fixed placeholder marker run of the placeholder-pattern mode. -/
def marker : Path := ['X', 'X', 'X', 'X', 'X', 'X']

/-- Whether a component contains the placeholder marker run. -/
def hasMarker : Path → Bool
  | [] => false
  | c :: rest => marker.isPrefixOf (c :: rest) || hasMarker rest

/-- Same-directory relation: both paths split, with the same parent
directory component. -/
def sameDir (p q : Path) : Prop :=
  ∃ d bp bq, splitPath p = some (d, bp) ∧ splitPath q = some (d, bq)

/-- Modelled from the spec: tempfn_xxxxxx (implementation absent from the
excerpt).  Placeholder-pattern mode of the Name Generator: the base path's
final component is inspected for the marker run; if absent, the extra tag and
the marker are appended before the final path component is rebuilt; if the
marker run is already present the component is used as the template as-is.
Signals an error if the base path has no parent directory component
extractable. -/
def tempfn_xxxxxx (p : Path) (extra : Option Path) : Except Err Path :=
  match splitPath p with
  | none => .error .einval
  | some (dir, base) =>
      if hasMarker base then .ok (dir ++ base)
      else .ok (dir ++ base ++ extra.getD [] ++ marker)

/-- One hexadecimal digit, a filesystem-safe alphanumeric character. -/
def hexDigit (n : Nat) : Char :=
  match n with
  | 0 => '0' | 1 => '1' | 2 => '2' | 3 => '3' | 4 => '4'
  | 5 => '5' | 6 => '6' | 7 => '7' | 8 => '8' | 9 => '9'
  | 10 => 'a' | 11 => 'b' | 12 => 'c' | 13 => 'd' | 14 => 'e'
  | _ => 'f'

/-- Encode one random byte into two filesystem-safe alphanumeric characters. -/
def encodeByte (b : Nat) : List Char :=
  [hexDigit (b / 16 % 16), hexDigit (b % 16)]

/-- Encode the random bytes into a filesystem-safe alphanumeric string. -/
def encodeRandom (r : List Nat) : List Char :=
  (r.map encodeByte).flatten

/-- Random-suffix name: the dot-separated tag and encoded randomness appended
to the base name. -/
def randomSuffix (extra : Option Path) (r : List Nat) : Path :=
  match extra with
  | some tag => '.' :: (tag ++ '.' :: encodeRandom r)
  | none => '.' :: encodeRandom r

/-- Modelled from the spec: tempfn_random (implementation absent from the
excerpt).  Random-suffix mode of the Name Generator: the random bytes are
encoded into a filesystem-safe alphanumeric string and appended as
dot-tag-dot-random (or dot-random if no tag) to the base name.  Signals an
error if the base path has no parent directory component extractable. -/
def tempfn_random (p : Path) (extra : Option Path) (r : List Nat) : Except Err Path :=
  match splitPath p with
  | none => .error .einval
  | some (dir, base) => .ok (dir ++ base ++ randomSuffix extra r)

/-- Modelled from the spec: tempfn_random_child (implementation absent from
the excerpt).  Identical to random-suffix mode but the base path is a
directory; the candidate is placed as a new entry inside it rather than as a
sibling.  The Name Generator's failure clause applies: signals an error if
the base path has no parent directory component extractable. -/
def tempfn_random_child (p : Path) (extra : Option Path) (r : List Nat) : Except Err Path :=
  match splitPath p with
  | none => .error .einval
  | some _ => .ok (p ++ '/' :: randomSuffix extra r)

/-- Alphanumeric character test (filesystem-safe alphabet). -/
def isAlnumChar (c : Char) : Bool :=
  ('0' ≤ c && c ≤ '9') || ('a' ≤ c && c ≤ 'z') || ('A' ≤ c && c ≤ 'Z')

/-- Execution environment of the scratch-file operations: whether the
anonymous-file capability (an O_TMPFILE-class mode) is supported, and the
stream of random bytes available to the i-th name-generation attempt. -/
structure Env where
  cap : Bool
  rand : Nat → List Nat

/-- Modelled from the spec: the attempt to open a directory in anonymous-file
mode.  When the capability is absent this fails with the distinguishable
capability-unsupported condition; otherwise it yields a fresh descriptor
(empty content) with no directory entry. -/
def openAnonymous (env : Env) : Except Err Content :=
  if env.cap then .ok [] else .error .eopnotsupp

/-- Candidate name used by the unlinkable fallback path: random-suffix mode
in the given directory. -/
def unlinkableName (dir : Path) (r : List Nat) : Path :=
  match tempfn_random_child dir none r with
  | .ok q => q
  | .error _ => dir

/-- Modelled from the spec: open_tmpfile_unlinkable (implementation absent
from the excerpt).  Attempt anonymous-file mode on the directory; if the
capability is absent, fall back to generating a Candidate Name via
random-suffix mode in that directory, create-exclusive it, then immediately
remove the directory entry while keeping the descriptor open.  Returns the
descriptor (modelled by its content) and the resulting filesystem state. -/
def open_tmpfile_unlinkable (env : Env) (fs : FS) (dir : Path) :
    Except Err Content × FS :=
  match openAnonymous env with
  | .ok fd => (.ok fd, fs)
  | .error .eopnotsupp =>
      match tempfn_random_child dir none (env.rand 0) with
      | .error e => (.error e, fs)
      | .ok n =>
          match alookup fs n with
          | some _ => (.error .eexist, fs)
          | none => (.ok [], aerase ((n, []) :: fs) n)
  | .error e => (.error e, fs)

/-- Candidate name used by the linkable fallback path for attempt i:
random-suffix mode as a sibling of the target. -/
def linkableName (target : Path) (r : List Nat) : Path :=
  match tempfn_random target none r with
  | .ok q => q
  | .error _ => target

/-- Fixed bound on random-suffix creation attempts. -/
def TMP_MAX : Nat := 100

/-- Modelled from the spec: the internal create-exclusive retry loop of the
linkable fallback path.  Attempt i uses the i-th candidate name; a name
collision is retried with fresh randomness until the fuel (the fixed bound)
is exhausted, at which point a single terminal error surfaces and no
directory entry is left behind. -/
def createRetry (fs : FS) (names : Nat → Path) : Nat → Nat → Except Err Path × FS
  | _, 0 => (.error .eexist, fs)
  | i, fuel + 1 =>
      match alookup fs (names i) with
      | some _ => createRetry fs names (i + 1) fuel
      | none => (.ok (names i), (names i, []) :: fs)

/-- Modelled from the spec: open_tmpfile_linkable (implementation absent from
the excerpt).  Attempt anonymous-file creation scoped to the target's parent
directory; if supported, return the descriptor with no path.  If unsupported,
fall back to random-suffix mode in the target's parent directory with
create-exclusive and bounded retry-on-conflict, returning the Candidate Name
currently holding the (empty, fresh) content. -/
def open_tmpfile_linkable (env : Env) (fs : FS) (target : Path) :
    Except Err (Option Path) × FS :=
  match openAnonymous env with
  | .ok _ => (.ok none, fs)
  | .error .eopnotsupp =>
      match splitPath target with
      | none => (.error .einval, fs)
      | some _ =>
          match createRetry fs (fun i => linkableName target (env.rand i)) 0 TMP_MAX with
          | (.ok n, fs') => (.ok (some n), fs')
          | (.error e, fs') => (.error e, fs')
  | .error e => (.error e, fs)

/-- Modelled from the spec: link_tmpfile (implementation absent from the
excerpt).  Atomic Publish: in descriptor-only form (no scratch path) the
anonymous descriptor's content is linked into the namespace at the target in
one atomic step, failing with target-exists if the target already exists.
In path form a hard link is created from the Candidate Name to the target
(exclusive, failing if the target exists), then the Candidate Name's entry is
removed; the unlink step may independently fail (unlinkOk false), which
leaves only an orphaned scratch name. -/
def link_tmpfile (fs : FS) (fd : Content) (path : Option Path) (target : Path)
    (unlinkOk : Bool) : Except Err Unit × FS :=
  match path with
  | none =>
      match alookup fs target with
      | some _ => (.error .eexist, fs)
      | none => (.ok (), (target, fd) :: fs)
  | some p =>
      match alookup fs target with
      | some _ => (.error .eexist, fs)
      | none =>
          match alookup fs p with
          | none => (.error .enoent, fs)
          | some c =>
              (.ok (), if unlinkOk then aerase ((target, c) :: fs) p
                       else (target, c) :: fs)

/-- Modelled from the spec: flink_tmpfile (implementation absent from the
excerpt).  Stream variant of Atomic Publish: the stream's buffered content is
flushed to its descriptor (a no-op in this model, where the descriptor
already carries the content) and the publish proceeds as link_tmpfile. -/
def flink_tmpfile (fs : FS) (f : Content) (path : Option Path) (target : Path)
    (unlinkOk : Bool) : Except Err Unit × FS :=
  link_tmpfile fs f path target unlinkOk

/-- The AT_FDCWD sentinel directory descriptor (current working directory). -/
def AT_FDCWD : Int := -100

/-- From src/basic/tmpfile-util.h lines 8-10: fopen_temporary delegates to
fopen_temporary_at with AT_FDCWD.  The at-variant's implementation is not
part of the excerpt, so it is taken as a parameter. -/
def fopen_temporary
    (fopen_temporary_at : Int → Path → FS → Except Err (Content × Path) × FS)
    (path : Path) (fs : FS) : Except Err (Content × Path) × FS :=
  fopen_temporary_at AT_FDCWD path fs

/-- One atomic filesystem step of one of two racing publish calls: the link
step or the unlink step of process 1 or process 2. -/
inductive Step where
  | l1
  | u1
  | l2
  | u2
  deriving DecidableEq, Repr

/-- Configuration of a race: the two scratch paths and the common target. -/
structure RaceCfg where
  p1 : Path
  p2 : Path
  tgt : Path

/-- State of a race: the filesystem plus each process's link outcome
(none while still pending; some true for success, some false for a
target-exists conflict). -/
structure RSt where
  fs : FS
  r1 : Option Bool
  r2 : Option Bool

/-- Modelled from the spec: the atomic exclusive link step of Atomic Publish,
copying the scratch entry's content to the target unless the target already
exists. -/
def doLink (fs : FS) (src tgt : Path) : FS × Bool :=
  match alookup fs tgt with
  | some _ => (fs, false)
  | none =>
      match alookup fs src with
      | none => (fs, false)
      | some c => ((tgt, c) :: fs, true)

/-- Execute one atomic step of the race. -/
def stepRun (cfg : RaceCfg) (s : RSt) : Step → RSt
  | .l1 =>
      let r := doLink s.fs cfg.p1 cfg.tgt
      { s with fs := r.1, r1 := some r.2 }
  | .u1 => { s with fs := aerase s.fs cfg.p1 }
  | .l2 =>
      let r := doLink s.fs cfg.p2 cfg.tgt
      { s with fs := r.1, r2 := some r.2 }
  | .u2 => { s with fs := aerase s.fs cfg.p2 }

/-- Execute a schedule (an interleaving of the two publishes' atomic steps). -/
def runSched (cfg : RaceCfg) (sched : List Step) (s : RSt) : RSt :=
  sched.foldl (stepRun cfg) s

/-- All interleavings of the two publishes' step sequences (link before
unlink within each process). -/
def raceScheds : List (List Step) :=
  [[.l1, .u1, .l2, .u2], [.l1, .l2, .u1, .u2], [.l1, .l2, .u2, .u1],
   [.l2, .u2, .l1, .u1], [.l2, .l1, .u2, .u1], [.l2, .l1, .u1, .u2]]

/-! Helper lemmas about the association-list filesystem state. -/

theorem alookup_cons_self (fs : FS) (k : Path) (v : Content) :
    alookup ((k, v) :: fs) k = some v := by
  simp [alookup]

theorem alookup_cons_ne (fs : FS) (k q : Path) (v : Content) (h : q ≠ k) :
    alookup ((k, v) :: fs) q = alookup fs q := by
  simp [alookup, Ne.symm h]

theorem aerase_cons_self (fs : FS) (k : Path) (v : Content) :
    aerase ((k, v) :: fs) k = fs := by
  simp [aerase]

theorem aerase_cons_ne (fs : FS) (k key : Path) (v : Content) (h : k ≠ key) :
    aerase ((k, v) :: fs) key = (k, v) :: aerase fs key := by
  simp [aerase, h]

theorem alookup_aerase_ne (fs : FS) (k q : Path) (h : q ≠ k) :
    alookup (aerase fs k) q = alookup fs q := by
  induction fs with
  | nil => rfl
  | cons a rest ih =>
      obtain ⟨ka, va⟩ := a
      by_cases hk : ka = k
      · subst hk
        simp [aerase, alookup, Ne.symm h]
      · by_cases hq : ka = q
        · subst hq
          simp [aerase, alookup, hk]
        · simp [aerase, alookup, hk, hq, ih]

theorem alookup_eq_none_of_not_mem (fs : FS) (k : Path)
    (h : k ∉ fs.map Prod.fst) : alookup fs k = none := by
  induction fs with
  | nil => rfl
  | cons a rest ih =>
      obtain ⟨ka, va⟩ := a
      simp only [List.map_cons, List.mem_cons, not_or] at h
      simp [alookup, Ne.symm h.1, ih h.2]

theorem alookup_aerase_self (fs : FS) (k : Path)
    (hnd : (fs.map Prod.fst).Nodup) : alookup (aerase fs k) k = none := by
  induction fs with
  | nil => rfl
  | cons a rest ih =>
      obtain ⟨ka, va⟩ := a
      simp only [List.map_cons, List.nodup_cons] at hnd
      by_cases hk : ka = k
      · subst hk
        simpa [aerase] using alookup_eq_none_of_not_mem rest ka hnd.1
      · simp [aerase, alookup, hk, ih hnd.2]

/-! Helper lemmas about path splitting. -/

theorem takeWhile_append_of_all (pred : Char → Bool) (xs ys : List Char)
    (h : ∀ c ∈ xs, pred c = true) :
    (xs ++ ys).takeWhile pred = xs ++ ys.takeWhile pred := by
  induction xs with
  | nil => simp
  | cons a l ih =>
      have ha := h a (List.mem_cons_self a l)
      simp [List.takeWhile_cons, ha,
        ih (fun c hc => h c (List.mem_cons_of_mem a hc))]

theorem dropWhile_append_of_all (pred : Char → Bool) (xs ys : List Char)
    (h : ∀ c ∈ xs, pred c = true) :
    (xs ++ ys).dropWhile pred = ys.dropWhile pred := by
  induction xs with
  | nil => simp
  | cons a l ih =>
      have ha := h a (List.mem_cons_self a l)
      simp [List.dropWhile_cons, ha,
        ih (fun c hc => h c (List.mem_cons_of_mem a hc))]

theorem splitPath_eq_append (p d b : Path) (h : splitPath p = some (d, b)) :
    d ++ b = p := by
  unfold splitPath at h
  split at h
  · exact absurd h (by simp)
  · simp only [Option.some.injEq, Prod.mk.injEq] at h
    obtain ⟨hd, hb⟩ := h
    subst hd
    subst hb
    rw [← List.reverse_append, List.takeWhile_append_dropWhile, List.reverse_reverse]

theorem splitPath_append (p s d b : Path) (hp : splitPath p = some (d, b))
    (hs : ∀ c ∈ s, notSlash c = true) :
    splitPath (p ++ s) = some (d, b ++ s) := by
  have hs' : ∀ c ∈ s.reverse, notSlash c = true := by
    intro c hc
    exact hs c (List.mem_reverse.mp hc)
  unfold splitPath at hp ⊢
  split at hp
  · exact absurd hp (by simp)
  · rename_i hcond
    push_neg at hcond
    obtain ⟨h1, h2⟩ := hcond
    simp only [Option.some.injEq, Prod.mk.injEq] at hp
    obtain ⟨hd, hb⟩ := hp
    rw [List.reverse_append, takeWhile_append_of_all _ _ _ hs',
      dropWhile_append_of_all _ _ _ hs']
    have hne : s.reverse ++ p.reverse.takeWhile notSlash ≠ [] := by
      intro hcontra
      exact h1 (List.append_eq_nil.mp hcontra).2
    rw [if_neg (by simp [hne, h2])]
    rw [List.reverse_append, List.reverse_reverse, hd, hb]

/-! Helper lemmas about the random-suffix encoding. -/

theorem hexDigit_notSlash (n : Nat) : notSlash (hexDigit n) = true := by
  unfold hexDigit
  split <;> decide

theorem hexDigit_alnum (n : Nat) : isAlnumChar (hexDigit n) = true := by
  unfold hexDigit
  split <;> decide

theorem encodeRandom_chars (r : List Nat) :
    ∀ c ∈ encodeRandom r, notSlash c = true ∧ isAlnumChar c = true := by
  intro c hc
  unfold encodeRandom at hc
  rw [List.mem_flatten] at hc
  obtain ⟨l, hl, hcl⟩ := hc
  rw [List.mem_map] at hl
  obtain ⟨b, _, rfl⟩ := hl
  unfold encodeByte at hcl
  simp only [List.mem_cons, List.not_mem_nil, or_false] at hcl
  rcases hcl with rfl | rfl
  · exact ⟨hexDigit_notSlash _, hexDigit_alnum _⟩
  · exact ⟨hexDigit_notSlash _, hexDigit_alnum _⟩

theorem randomSuffix_notSlash (extra : Option Path) (r : List Nat)
    (hextra : ∀ c ∈ extra.getD [], notSlash c = true) :
    ∀ c ∈ randomSuffix extra r, notSlash c = true := by
  intro c hc
  cases extra with
  | none =>
      unfold randomSuffix at hc
      rcases List.mem_cons.mp hc with rfl | hmem
      · decide
      · exact (encodeRandom_chars r c hmem).1
  | some tag =>
      unfold randomSuffix at hc
      rcases List.mem_cons.mp hc with rfl | hmem
      · decide
      · rcases List.mem_append.mp hmem with htag | hdot
        · exact hextra c htag
        · rcases List.mem_cons.mp hdot with rfl | henc
          · decide
          · exact (encodeRandom_chars r c henc).1

theorem encodeRandom_length (r : List Nat) :
    (encodeRandom r).length = 2 * r.length := by
  induction r with
  | nil => rfl
  | cons b rest ih =>
      simp only [encodeRandom, List.map_cons, List.flatten_cons,
        List.length_append, encodeByte] at *
      simp [ih]
      omega

theorem hexDigit_inj : ∀ a < 16, ∀ b < 16, hexDigit a = hexDigit b → a = b := by
  decide

theorem encodeByte_inj (a b : Nat) (ha : a < 256) (hb : b < 256)
    (h : encodeByte a = encodeByte b) : a = b := by
  unfold encodeByte at h
  simp only [List.cons.injEq, and_true] at h
  obtain ⟨h1, h2⟩ := h
  have e1 : a / 16 % 16 = b / 16 % 16 :=
    hexDigit_inj _ (Nat.mod_lt _ (by norm_num)) _ (Nat.mod_lt _ (by norm_num)) h1
  have e2 : a % 16 = b % 16 :=
    hexDigit_inj _ (Nat.mod_lt _ (by norm_num)) _ (Nat.mod_lt _ (by norm_num)) h2
  have da : a / 16 < 16 := by omega
  have db : b / 16 < 16 := by omega
  rw [Nat.mod_eq_of_lt da, Nat.mod_eq_of_lt db] at e1
  omega

theorem encodeRandom_inj (r r' : List Nat) (hlen : r.length = r'.length)
    (hr : ∀ x ∈ r, x < 256) (hr' : ∀ x ∈ r', x < 256)
    (h : encodeRandom r = encodeRandom r') : r = r' := by
  induction r generalizing r' with
  | nil =>
      cases r' with
      | nil => rfl
      | cons => simp at hlen
  | cons a t ih =>
      cases r' with
      | nil => simp at hlen
      | cons a' t' =>
          unfold encodeRandom at h
          simp only [List.map_cons, List.flatten_cons] at h
          obtain ⟨h1, h2⟩ := List.append_inj h rfl
          have hd : a = a' :=
            encodeByte_inj a a' (hr a (by simp)) (hr' a' (by simp)) h1
          subst hd
          have ht : t = t' := by
            refine ih t' (by simpa using hlen)
              (fun x hx => hr x (List.mem_cons_of_mem a hx))
              (fun x hx => hr' x (List.mem_cons_of_mem a hx)) ?_
            unfold encodeRandom
            exact h2
          rw [ht]

theorem marker_notSlash : ∀ c ∈ marker, notSlash c = true := by decide

theorem hasMarker_append_marker (xs : Path) : hasMarker (xs ++ marker) = true := by
  induction xs with
  | nil => decide
  | cons c rest ih => simp [hasMarker, ih]

theorem tempfn_random_child_error (p : Path) (extra : Option Path)
    (r : List Nat) (e : Err) (h : tempfn_random_child p extra r = .error e) :
    e = .einval := by
  unfold tempfn_random_child at h
  cases hsp : splitPath p with
  | none =>
      rw [hsp] at h
      injection h with h'
      exact h'.symm
  | some db =>
      rw [hsp] at h
      simp at h

theorem createRetry_spec (fs : FS) (names : Nat → Path) : ∀ fuel i,
    ((∃ j, j < fuel ∧ alookup fs (names (i + j)) = none) →
      ∃ n, createRetry fs names i fuel = (.ok n, (n, []) :: fs)
        ∧ alookup fs n = none)
    ∧ ((∀ j, j < fuel → (alookup fs (names (i + j))).isSome = true) →
      createRetry fs names i fuel = (.error .eexist, fs)) := by
  intro fuel
  induction fuel with
  | zero =>
      intro i
      constructor
      · rintro ⟨j, hj, _⟩
        exact absurd hj (by omega)
      · intro _
        rfl
  | succ m ih =>
      intro i
      constructor
      · rintro ⟨j, hj, hnone⟩
        cases hcase : alookup fs (names i) with
        | none =>
            exact ⟨names i, by simp [createRetry, hcase], hcase⟩
        | some v =>
            have hj0 : j ≠ 0 := by
              intro h0
              subst h0
              rw [Nat.add_zero] at hnone
              rw [hcase] at hnone
              cases hnone
            obtain ⟨j', rfl⟩ := Nat.exists_eq_succ_of_ne_zero hj0
            have hstep : ∃ k, k < m ∧ alookup fs (names (i + 1 + k)) = none :=
              ⟨j', by omega, by rw [show i + 1 + j' = i + (j' + 1) by omega]; exact hnone⟩
            obtain ⟨n, hn, hnn⟩ := (ih (i + 1)).1 hstep
            exact ⟨n, by simp [createRetry, hcase, hn], hnn⟩
      · intro hall
        cases hcase : alookup fs (names i) with
        | none =>
            have h0 := hall 0 (by omega)
            rw [Nat.add_zero, hcase] at h0
            cases h0
        | some v =>
            have hrec := (ih (i + 1)).2 (fun j hj => by
              rw [show i + 1 + j = i + (j + 1) by omega]
              exact hall (j + 1) (by omega))
            simp [createRetry, hcase, hrec]

/-! Claim theorems. -/

/-- Claim C1: Atomic Publish (link_tmpfile / flink_tmpfile) to an existing
target fails with the target-exists error and leaves the existing target's
content byte-for-byte unchanged, in both descriptor-only and path form; it
never overwrites an existing target. -/
theorem c1_publish_existing_target_fails (fs : FS) (target : Path)
    (c0 : Content) (h : alookup fs target = some c0) (fd : Content)
    (path : Option Path) (u : Bool) :
    (link_tmpfile fs fd path target u).1 = .error .eexist
    ∧ alookup (link_tmpfile fs fd path target u).2 target = some c0
    ∧ (flink_tmpfile fs fd path target u).1 = .error .eexist
    ∧ alookup (flink_tmpfile fs fd path target u).2 target = some c0 := by
  cases path <;> simp [link_tmpfile, flink_tmpfile, h]

/-- Concrete instance of claim C1: publishing onto an existing one-entry
target fails and keeps the entry. -/
theorem c1_publish_existing_target_fails_witness :
    (link_tmpfile [(['t'], [1])] [] none ['t'] true).1 = .error .eexist
    ∧ alookup (link_tmpfile [(['t'], [1])] [] none ['t'] true).2 ['t'] = some [1]
    ∧ (flink_tmpfile [(['t'], [1])] [] none ['t'] true).1 = .error .eexist
    ∧ alookup (flink_tmpfile [(['t'], [1])] [] none ['t'] true).2 ['t'] = some [1] :=
  c1_publish_existing_target_fails [(['t'], [1])] ['t'] [1] (by rfl) [] none true

/-- Claim C2: in path form, Atomic Publish creates a hard link from the
Candidate Name to the target with exclusive semantics and then removes the
Candidate Name's entry; if the unlink step fails, the target is nevertheless
already correct and only an orphaned scratch name remains; no other entry is
touched. -/
theorem c2_path_form_link_then_unlink (fs : FS) (fd : Content)
    (p target : Path) (c : Content) (u : Bool)
    (hnd : (fs.map Prod.fst).Nodup)
    (ht : alookup fs target = none) (hp : alookup fs p = some c)
    (hne : p ≠ target) :
    ∃ fs', link_tmpfile fs fd (some p) target u = (.ok (), fs')
      ∧ alookup fs' target = some c
      ∧ (u = true → alookup fs' p = none)
      ∧ (u = false → alookup fs' p = some c)
      ∧ ∀ q, q ≠ target → q ≠ p → alookup fs' q = alookup fs q := by
  cases u with
  | true =>
      refine ⟨(target, c) :: aerase fs p, ?_, alookup_cons_self _ _ _, ?_, ?_, ?_⟩
      · simp [link_tmpfile, ht, hp, aerase_cons_ne _ _ _ _ (Ne.symm hne)]
      · intro _
        rw [alookup_cons_ne _ _ _ _ hne]
        exact alookup_aerase_self fs p hnd
      · intro hcontra
        simp at hcontra
      · intro q hqt hqp
        rw [alookup_cons_ne _ _ _ _ hqt, alookup_aerase_ne _ _ _ hqp]
  | false =>
      refine ⟨(target, c) :: fs, ?_, alookup_cons_self _ _ _, ?_, ?_, ?_⟩
      · simp [link_tmpfile, ht, hp]
      · intro hcontra
        simp at hcontra
      · intro _
        rw [alookup_cons_ne _ _ _ _ hne]
        exact hp
      · intro q hqt _
        exact alookup_cons_ne _ _ _ _ hqt

/-- Concrete instance of claim C2: publishing a one-entry scratch file to a
fresh target with the unlink step succeeding. -/
theorem c2_path_form_link_then_unlink_witness :
    ∃ fs', link_tmpfile [(['s'], [7])] [] (some ['s']) ['t'] true = (.ok (), fs')
      ∧ alookup fs' ['t'] = some [7]
      ∧ (true = true → alookup fs' ['s'] = none)
      ∧ (true = false → alookup fs' ['s'] = some [7])
      ∧ ∀ q, q ≠ ['t'] → q ≠ ['s'] → alookup fs' q = alookup [(['s'], [7])] q :=
  c2_path_form_link_then_unlink [(['s'], [7])] [] ['s'] ['t'] [7] true
    (by decide) (by rfl) (by rfl) (by decide)

/-- Claim C7: when the base path has no parent directory component
extractable (malformed input), every Name Generator operation signals an
error instead of producing a Candidate Name. -/
theorem c7_malformed_base_path_errors (p : Path) (extra : Option Path)
    (r : List Nat) (h : splitPath p = none) :
    tempfn_xxxxxx p extra = .error .einval
    ∧ tempfn_random p extra r = .error .einval
    ∧ tempfn_random_child p extra r = .error .einval := by
  simp [tempfn_xxxxxx, tempfn_random, tempfn_random_child, h]

/-- Concrete instance of claim C7 at a slash-free base path. -/
theorem c7_malformed_base_path_errors_witness :
    tempfn_xxxxxx ['f'] none = .error .einval
    ∧ tempfn_random ['f'] none [] = .error .einval
    ∧ tempfn_random_child ['f'] none [] = .error .einval :=
  c7_malformed_base_path_errors ['f'] none [] (by rfl)

/-- Claim C6: every Candidate Name produced by the Name Generator
(tempfn_xxxxxx, tempfn_random) lies in the same directory as its base path,
its eventual target. -/
theorem c6_candidate_same_directory (p : Path) (extraX extraR : Option Path)
    (r : List Nat)
    (hX : ∀ c ∈ extraX.getD [], notSlash c = true)
    (hR : ∀ c ∈ extraR.getD [], notSlash c = true) :
    (∀ q, tempfn_xxxxxx p extraX = .ok q → sameDir p q)
    ∧ (∀ q, tempfn_random p extraR r = .ok q → sameDir p q) := by
  constructor
  · intro q hq
    cases hsp : splitPath p with
    | none =>
        unfold tempfn_xxxxxx at hq
        rw [hsp] at hq
        simp at hq
    | some db =>
        obtain ⟨d, b⟩ := db
        have hdb : d ++ b = p := splitPath_eq_append p d b hsp
        have heq : tempfn_xxxxxx p extraX
            = if hasMarker b = true then Except.ok (d ++ b)
              else Except.ok (d ++ b ++ extraX.getD [] ++ marker) := by
          unfold tempfn_xxxxxx
          rw [hsp]
        rw [heq] at hq
        by_cases hm : hasMarker b = true
        · rw [if_pos hm] at hq
          injection hq with hq'
          subst hq'
          exact ⟨d, b, b, hsp, by rw [hdb]; exact hsp⟩
        · rw [if_neg hm] at hq
          injection hq with hq'
          subst hq'
          have hns : ∀ c ∈ extraX.getD [] ++ marker, notSlash c = true := by
            intro c hc
            rcases List.mem_append.mp hc with h | h
            · exact hX c h
            · exact marker_notSlash c h
          refine ⟨d, b, b ++ (extraX.getD [] ++ marker), hsp, ?_⟩
          have harr : d ++ b ++ extraX.getD [] ++ marker
              = p ++ (extraX.getD [] ++ marker) := by
            rw [← hdb]
            simp [List.append_assoc]
          rw [harr]
          exact splitPath_append p _ d b hsp hns
  · intro q hq
    cases hsp : splitPath p with
    | none =>
        unfold tempfn_random at hq
        rw [hsp] at hq
        simp at hq
    | some db =>
        obtain ⟨d, b⟩ := db
        have hdb : d ++ b = p := splitPath_eq_append p d b hsp
        have heq : tempfn_random p extraR r
            = Except.ok (d ++ b ++ randomSuffix extraR r) := by
          unfold tempfn_random
          rw [hsp]
        rw [heq] at hq
        injection hq with hq'
        subst hq'
        refine ⟨d, b, b ++ randomSuffix extraR r, hsp, ?_⟩
        have harr : d ++ b ++ randomSuffix extraR r
            = p ++ randomSuffix extraR r := by
          rw [← hdb]
        rw [harr]
        exact splitPath_append p _ d b hsp (randomSuffix_notSlash extraR r hR)

/-- Concrete instance of claim C6: both generator modes keep the candidate
in the base path's directory. -/
theorem c6_candidate_same_directory_witness :
    sameDir ['/', 'a'] ['/', 'a', 'X', 'X', 'X', 'X', 'X', 'X']
    ∧ sameDir ['/', 'a'] ['/', 'a', '.'] :=
  ⟨(c6_candidate_same_directory ['/', 'a'] none none [] (by decide) (by decide)).1
      ['/', 'a', 'X', 'X', 'X', 'X', 'X', 'X'] (by rfl),
   (c6_candidate_same_directory ['/', 'a'] none none [] (by decide) (by decide)).2
      ['/', 'a', '.'] (by rfl)⟩

/-- Claim C8: random-suffix generation encodes the 16 random bytes into a
filesystem-safe alphanumeric string and appends it as dot-tag-dot-random
when a tag is given, or dot-random when no tag is given; the encoding has
fixed length 32 and is injective, so distinct randomness yields distinct
candidate names. -/
theorem c8_random_suffix_format (p d b tag : Path) (r : List Nat)
    (hsp : splitPath p = some (d, b)) (hlen : r.length = 16)
    (hbytes : ∀ x ∈ r, x < 256) :
    tempfn_random p (some tag) r
      = .ok (p ++ '.' :: (tag ++ '.' :: encodeRandom r))
    ∧ tempfn_random p none r = .ok (p ++ '.' :: encodeRandom r)
    ∧ (encodeRandom r).length = 32
    ∧ (∀ c ∈ encodeRandom r, isAlnumChar c = true)
    ∧ ∀ r', r'.length = 16 → (∀ x ∈ r', x < 256) →
        encodeRandom r = encodeRandom r' → r = r' := by
  have hdb : d ++ b = p := splitPath_eq_append p d b hsp
  refine ⟨?_, ?_, ?_, ?_, ?_⟩
  · have heq : tempfn_random p (some tag) r
        = Except.ok (d ++ b ++ randomSuffix (some tag) r) := by
      unfold tempfn_random
      rw [hsp]
    rw [heq, ← hdb]
    simp [randomSuffix, List.append_assoc]
  · have heq : tempfn_random p none r
        = Except.ok (d ++ b ++ randomSuffix none r) := by
      unfold tempfn_random
      rw [hsp]
    rw [heq, ← hdb]
    simp [randomSuffix, List.append_assoc]
  · rw [encodeRandom_length, hlen]
  · intro c hc
    exact (encodeRandom_chars r c hc).2
  · intro r' hlen' hbytes' henc
    exact encodeRandom_inj r r' (by rw [hlen, hlen']) hbytes hbytes' henc

/-- Concrete instance of claim C8 at sixteen zero bytes. -/
theorem c8_random_suffix_format_witness :
    tempfn_random ['/', 'a'] (some ['t']) (List.replicate 16 0)
      = .ok (['/', 'a'] ++ '.' :: (['t'] ++ '.' :: encodeRandom (List.replicate 16 0)))
    ∧ tempfn_random ['/', 'a'] none (List.replicate 16 0)
      = .ok (['/', 'a'] ++ '.' :: encodeRandom (List.replicate 16 0))
    ∧ (encodeRandom (List.replicate 16 0)).length = 32 :=
  ⟨(c8_random_suffix_format ['/', 'a'] ['/'] ['a'] ['t'] (List.replicate 16 0)
      (by rfl) (by rfl) (by decide)).1,
   (c8_random_suffix_format ['/', 'a'] ['/'] ['a'] ['t'] (List.replicate 16 0)
      (by rfl) (by rfl) (by decide)).2.1,
   (c8_random_suffix_format ['/', 'a'] ['/'] ['a'] ['t'] (List.replicate 16 0)
      (by rfl) (by rfl) (by decide)).2.2.1⟩

/-- Claim C9: placeholder-pattern generation (tempfn_xxxxxx) appends the
extra tag and the marker run to the final component when the marker run is
absent, uses the component as the template as-is when the marker run is
already present, and in both cases the rebuilt final path component contains
the marker run. -/
theorem c9_placeholder_pattern (p d b : Path) (extra : Option Path)
    (hsp : splitPath p = some (d, b)) :
    (hasMarker b = false →
      tempfn_xxxxxx p extra = .ok (p ++ (extra.getD [] ++ marker)))
    ∧ (hasMarker b = true → tempfn_xxxxxx p extra = .ok p)
    ∧ ∀ q, tempfn_xxxxxx p extra = .ok q → hasMarker (q.drop d.length) = true := by
  have hdb : d ++ b = p := splitPath_eq_append p d b hsp
  have heq : tempfn_xxxxxx p extra
      = if hasMarker b = true then Except.ok (d ++ b)
        else Except.ok (d ++ b ++ extra.getD [] ++ marker) := by
    unfold tempfn_xxxxxx
    rw [hsp]
  refine ⟨?_, ?_, ?_⟩
  · intro hm
    rw [heq, if_neg (by simp [hm]), ← hdb]
    simp [List.append_assoc]
  · intro hm
    rw [heq, if_pos hm, hdb]
  · intro q hq
    rw [heq] at hq
    by_cases hm : hasMarker b = true
    · rw [if_pos hm] at hq
      injection hq with hq'
      subst hq'
      rw [List.drop_left]
      exact hm
    · rw [if_neg hm] at hq
      injection hq with hq'
      subst hq'
      have harr : d ++ b ++ extra.getD [] ++ marker
          = d ++ (b ++ extra.getD [] ++ marker) := by
        simp [List.append_assoc]
      rw [harr, List.drop_left]
      exact hasMarker_append_marker (b ++ extra.getD [])

/-- Concrete instance of claim C9: a marker-free final component gets the
marker appended, and the rebuilt component contains the marker run. -/
theorem c9_placeholder_pattern_witness :
    tempfn_xxxxxx ['/', 'a'] none = .ok (['/', 'a'] ++ ([] ++ marker))
    ∧ hasMarker ((['/', 'a'] ++ ([] ++ marker)).drop 1) = true :=
  ⟨(c9_placeholder_pattern ['/', 'a'] ['/'] ['a'] none (by rfl)).1 (by rfl),
   (c9_placeholder_pattern ['/', 'a'] ['/'] ['a'] none (by rfl)).2.2
     (['/', 'a'] ++ ([] ++ marker))
     ((c9_placeholder_pattern ['/', 'a'] ['/'] ['a'] none (by rfl)).1 (by rfl))⟩

/-- Claim C10: fopen_temporary is a pure delegation to fopen_temporary_at
with the AT_FDCWD current-working-directory sentinel: for every
implementation of the at-variant, every path and every state, both entry
points return exactly the same result with exactly the same effect. -/
theorem c10_fopen_temporary_delegates
    (fopen_temporary_at : Int → Path → FS → Except Err (Content × Path) × FS)
    (path : Path) (fs : FS) :
    fopen_temporary fopen_temporary_at path fs
      = fopen_temporary_at AT_FDCWD path fs := rfl

/-- Claim C4: open_tmpfile_unlinkable fully absorbs the
capability-unsupported condition internally (it never surfaces to the
caller) and uses it to drive the fallback — create-exclusive a random-suffix
candidate, then immediately unlink it while keeping the descriptor; on both
paths the caller receives a descriptor with no visible name and the two
paths produce identical observable outcomes, so the caller cannot
distinguish which was taken. -/
theorem c4_unlinkable_absorbs_capability (rand : Nat → List Nat) (fs : FS)
    (dir n : Path)
    (hn : tempfn_random_child dir none (rand 0) = .ok n)
    (hfresh : alookup fs n = none) :
    (∀ (env' : Env) (fs' : FS) (dir' : Path),
      (open_tmpfile_unlinkable env' fs' dir').1 ≠ .error .eopnotsupp)
    ∧ open_tmpfile_unlinkable ⟨false, rand⟩ fs dir = (.ok [], fs)
    ∧ open_tmpfile_unlinkable ⟨true, rand⟩ fs dir = (.ok [], fs) := by
  refine ⟨?_, ?_, ?_⟩
  · intro env' fs' dir'
    unfold open_tmpfile_unlinkable
    cases hcap : openAnonymous env' with
    | ok fd => simp
    | error e =>
        have he : e = Err.eopnotsupp := by
          unfold openAnonymous at hcap
          by_cases hc : env'.cap = true
          · rw [if_pos hc] at hcap
            cases hcap
          · rw [if_neg hc] at hcap
            injection hcap with h'
            exact h'.symm
        subst he
        cases htf : tempfn_random_child dir' none (env'.rand 0) with
        | error e2 =>
            have he2 := tempfn_random_child_error _ _ _ _ htf
            subst he2
            simp [htf]
        | ok m =>
            cases hl : alookup fs' m with
            | none => simp [htf, hl]
            | some v => simp [htf, hl]
  · have hstep : open_tmpfile_unlinkable ⟨false, rand⟩ fs dir
        = (.ok [], aerase ((n, []) :: fs) n) := by
      unfold open_tmpfile_unlinkable openAnonymous
      simp [hn, hfresh]
    rw [hstep, aerase_cons_self]
  · rfl

/-- Concrete instance of claim C4: the anonymous path and the fallback path
return the same descriptor with the filesystem left without any new entry. -/
theorem c4_unlinkable_absorbs_capability_witness :
    open_tmpfile_unlinkable ⟨false, fun _ => []⟩ [] ['/', 'd'] = (.ok [], [])
    ∧ open_tmpfile_unlinkable ⟨true, fun _ => []⟩ [] ['/', 'd'] = (.ok [], []) :=
  ⟨(c4_unlinkable_absorbs_capability (fun _ => []) [] ['/', 'd']
      ['/', 'd', '/', '.'] (by rfl) (by rfl)).2.1,
   (c4_unlinkable_absorbs_capability (fun _ => []) [] ['/', 'd']
      ['/', 'd', '/', '.'] (by rfl) (by rfl)).2.2⟩

/-- Claim C5: on the fallback (named) path of open_tmpfile_linkable a name
collision on exclusive creation is retried internally up to the fixed bound
TMP_MAX = 100, so the internal loop always terminates: creation succeeds
within the bound whenever some attempt's candidate is fresh (adding exactly
that one entry), and once every attempt within the bound collides a single
terminal error surfaces with the filesystem unchanged — no leaked directory
entries. -/
theorem c5_linkable_bounded_retry (rand : Nat → List Nat) (fs : FS)
    (target : Path) (db : Path × Path) (hsp : splitPath target = some db) :
    ((∃ j, j < TMP_MAX ∧ alookup fs (linkableName target (rand j)) = none) →
      ∃ n, open_tmpfile_linkable ⟨false, rand⟩ fs target
          = (.ok (some n), (n, []) :: fs)
        ∧ alookup fs n = none)
    ∧ ((∀ j, j < TMP_MAX →
          (alookup fs (linkableName target (rand j))).isSome = true) →
      open_tmpfile_linkable ⟨false, rand⟩ fs target = (.error .eexist, fs)) := by
  constructor
  · intro hex
    have hex' : ∃ j, j < TMP_MAX
        ∧ alookup fs ((fun i => linkableName target (rand i)) (0 + j)) = none := by
      obtain ⟨j, hj, hj'⟩ := hex
      exact ⟨j, hj, by simpa using hj'⟩
    obtain ⟨n, hn, hnn⟩ :=
      (createRetry_spec fs (fun i => linkableName target (rand i)) TMP_MAX 0).1 hex'
    refine ⟨n, ?_, hnn⟩
    unfold open_tmpfile_linkable openAnonymous
    simp [hsp, hn]
  · intro hall
    have hall' : ∀ j, j < TMP_MAX →
        (alookup fs ((fun i => linkableName target (rand i)) (0 + j))).isSome = true := by
      intro j hj
      simpa using hall j hj
    have hres :=
      (createRetry_spec fs (fun i => linkableName target (rand i)) TMP_MAX 0).2 hall'
    unfold open_tmpfile_linkable openAnonymous
    simp [hsp, hres]

/-- Concrete instance of claim C5: with an empty directory the first attempt
is fresh and creation succeeds within the bound. -/
theorem c5_linkable_bounded_retry_witness :
    ∃ n, open_tmpfile_linkable ⟨false, fun _ => []⟩ [] ['/', 'a']
        = (.ok (some n), (n, []) :: [])
      ∧ alookup [] n = none :=
  (c5_linkable_bounded_retry (fun _ => []) [] ['/', 'a'] (['/'], ['a'])
      (by rfl)).1 ⟨0, by decide, by rfl⟩

/-- Claim C3: for two concurrent Atomic Publish calls with the same final
target path, under every interleaving of their atomic filesystem steps
exactly one succeeds (its link is created) and the other observes a
target-exists conflict, and the target ends up holding the winner's complete
scratch content — no interleaving produces a corrupted, truncated, or
half-linked target. -/
theorem c3_concurrent_publish_race (p1 p2 tgt : Path) (c1 c2 : Content)
    (fs : FS) (h1 : p1 ≠ tgt) (h2 : p2 ≠ tgt)
    (ht : alookup fs tgt = none) (hp1 : alookup fs p1 = some c1)
    (hp2 : alookup fs p2 = some c2) (sched : List Step)
    (hmem : sched ∈ raceScheds) :
    ((runSched ⟨p1, p2, tgt⟩ sched ⟨fs, none, none⟩).r1 = some true
      ∧ (runSched ⟨p1, p2, tgt⟩ sched ⟨fs, none, none⟩).r2 = some false
      ∧ alookup (runSched ⟨p1, p2, tgt⟩ sched ⟨fs, none, none⟩).fs tgt = some c1)
    ∨ ((runSched ⟨p1, p2, tgt⟩ sched ⟨fs, none, none⟩).r1 = some false
      ∧ (runSched ⟨p1, p2, tgt⟩ sched ⟨fs, none, none⟩).r2 = some true
      ∧ alookup (runSched ⟨p1, p2, tgt⟩ sched ⟨fs, none, none⟩).fs tgt = some c2) := by
  have hmem' : sched = [Step.l1, Step.u1, Step.l2, Step.u2]
      ∨ sched = [Step.l1, Step.l2, Step.u1, Step.u2]
      ∨ sched = [Step.l1, Step.l2, Step.u2, Step.u1]
      ∨ sched = [Step.l2, Step.u2, Step.l1, Step.u1]
      ∨ sched = [Step.l2, Step.l1, Step.u2, Step.u1]
      ∨ sched = [Step.l2, Step.l1, Step.u1, Step.u2] := by
    simpa [raceScheds] using hmem
  rcases hmem' with rfl | rfl | rfl | rfl | rfl | rfl
  · left
    have e1 : stepRun ⟨p1, p2, tgt⟩ ⟨fs, none, none⟩ .l1
        = ⟨(tgt, c1) :: fs, some true, none⟩ := by
      simp [stepRun, doLink, ht, hp1]
    have e2 : stepRun ⟨p1, p2, tgt⟩ ⟨(tgt, c1) :: fs, some true, none⟩ .u1
        = ⟨(tgt, c1) :: aerase fs p1, some true, none⟩ := by
      simp [stepRun, aerase_cons_ne fs tgt p1 c1 (Ne.symm h1)]
    have e3 : stepRun ⟨p1, p2, tgt⟩
        ⟨(tgt, c1) :: aerase fs p1, some true, none⟩ .l2
        = ⟨(tgt, c1) :: aerase fs p1, some true, some false⟩ := by
      simp [stepRun, doLink, alookup_cons_self]
    have e4 : stepRun ⟨p1, p2, tgt⟩
        ⟨(tgt, c1) :: aerase fs p1, some true, some false⟩ .u2
        = ⟨(tgt, c1) :: aerase (aerase fs p1) p2, some true, some false⟩ := by
      simp [stepRun, aerase_cons_ne (aerase fs p1) tgt p2 c1 (Ne.symm h2)]
    have hrun : runSched ⟨p1, p2, tgt⟩ [Step.l1, Step.u1, Step.l2, Step.u2]
        ⟨fs, none, none⟩
        = ⟨(tgt, c1) :: aerase (aerase fs p1) p2, some true, some false⟩ := by
      simp only [runSched, List.foldl_cons, List.foldl_nil, e1, e2, e3, e4]
    rw [hrun]
    exact ⟨rfl, rfl, alookup_cons_self _ _ _⟩
  · left
    have e1 : stepRun ⟨p1, p2, tgt⟩ ⟨fs, none, none⟩ .l1
        = ⟨(tgt, c1) :: fs, some true, none⟩ := by
      simp [stepRun, doLink, ht, hp1]
    have e2 : stepRun ⟨p1, p2, tgt⟩ ⟨(tgt, c1) :: fs, some true, none⟩ .l2
        = ⟨(tgt, c1) :: fs, some true, some false⟩ := by
      simp [stepRun, doLink, alookup_cons_self]
    have e3 : stepRun ⟨p1, p2, tgt⟩ ⟨(tgt, c1) :: fs, some true, some false⟩ .u1
        = ⟨(tgt, c1) :: aerase fs p1, some true, some false⟩ := by
      simp [stepRun, aerase_cons_ne fs tgt p1 c1 (Ne.symm h1)]
    have e4 : stepRun ⟨p1, p2, tgt⟩
        ⟨(tgt, c1) :: aerase fs p1, some true, some false⟩ .u2
        = ⟨(tgt, c1) :: aerase (aerase fs p1) p2, some true, some false⟩ := by
      simp [stepRun, aerase_cons_ne (aerase fs p1) tgt p2 c1 (Ne.symm h2)]
    have hrun : runSched ⟨p1, p2, tgt⟩ [Step.l1, Step.l2, Step.u1, Step.u2]
        ⟨fs, none, none⟩
        = ⟨(tgt, c1) :: aerase (aerase fs p1) p2, some true, some false⟩ := by
      simp only [runSched, List.foldl_cons, List.foldl_nil, e1, e2, e3, e4]
    rw [hrun]
    exact ⟨rfl, rfl, alookup_cons_self _ _ _⟩
  · left
    have e1 : stepRun ⟨p1, p2, tgt⟩ ⟨fs, none, none⟩ .l1
        = ⟨(tgt, c1) :: fs, some true, none⟩ := by
      simp [stepRun, doLink, ht, hp1]
    have e2 : stepRun ⟨p1, p2, tgt⟩ ⟨(tgt, c1) :: fs, some true, none⟩ .l2
        = ⟨(tgt, c1) :: fs, some true, some false⟩ := by
      simp [stepRun, doLink, alookup_cons_self]
    have e3 : stepRun ⟨p1, p2, tgt⟩ ⟨(tgt, c1) :: fs, some true, some false⟩ .u2
        = ⟨(tgt, c1) :: aerase fs p2, some true, some false⟩ := by
      simp [stepRun, aerase_cons_ne fs tgt p2 c1 (Ne.symm h2)]
    have e4 : stepRun ⟨p1, p2, tgt⟩
        ⟨(tgt, c1) :: aerase fs p2, some true, some false⟩ .u1
        = ⟨(tgt, c1) :: aerase (aerase fs p2) p1, some true, some false⟩ := by
      simp [stepRun, aerase_cons_ne (aerase fs p2) tgt p1 c1 (Ne.symm h1)]
    have hrun : runSched ⟨p1, p2, tgt⟩ [Step.l1, Step.l2, Step.u2, Step.u1]
        ⟨fs, none, none⟩
        = ⟨(tgt, c1) :: aerase (aerase fs p2) p1, some true, some false⟩ := by
      simp only [runSched, List.foldl_cons, List.foldl_nil, e1, e2, e3, e4]
    rw [hrun]
    exact ⟨rfl, rfl, alookup_cons_self _ _ _⟩
  · right
    have e1 : stepRun ⟨p1, p2, tgt⟩ ⟨fs, none, none⟩ .l2
        = ⟨(tgt, c2) :: fs, none, some true⟩ := by
      simp [stepRun, doLink, ht, hp2]
    have e2 : stepRun ⟨p1, p2, tgt⟩ ⟨(tgt, c2) :: fs, none, some true⟩ .u2
        = ⟨(tgt, c2) :: aerase fs p2, none, some true⟩ := by
      simp [stepRun, aerase_cons_ne fs tgt p2 c2 (Ne.symm h2)]
    have e3 : stepRun ⟨p1, p2, tgt⟩
        ⟨(tgt, c2) :: aerase fs p2, none, some true⟩ .l1
        = ⟨(tgt, c2) :: aerase fs p2, some false, some true⟩ := by
      simp [stepRun, doLink, alookup_cons_self]
    have e4 : stepRun ⟨p1, p2, tgt⟩
        ⟨(tgt, c2) :: aerase fs p2, some false, some true⟩ .u1
        = ⟨(tgt, c2) :: aerase (aerase fs p2) p1, some false, some true⟩ := by
      simp [stepRun, aerase_cons_ne (aerase fs p2) tgt p1 c2 (Ne.symm h1)]
    have hrun : runSched ⟨p1, p2, tgt⟩ [Step.l2, Step.u2, Step.l1, Step.u1]
        ⟨fs, none, none⟩
        = ⟨(tgt, c2) :: aerase (aerase fs p2) p1, some false, some true⟩ := by
      simp only [runSched, List.foldl_cons, List.foldl_nil, e1, e2, e3, e4]
    rw [hrun]
    exact ⟨rfl, rfl, alookup_cons_self _ _ _⟩
  · right
    have e1 : stepRun ⟨p1, p2, tgt⟩ ⟨fs, none, none⟩ .l2
        = ⟨(tgt, c2) :: fs, none, some true⟩ := by
      simp [stepRun, doLink, ht, hp2]
    have e2 : stepRun ⟨p1, p2, tgt⟩ ⟨(tgt, c2) :: fs, none, some true⟩ .l1
        = ⟨(tgt, c2) :: fs, some false, some true⟩ := by
      simp [stepRun, doLink, alookup_cons_self]
    have e3 : stepRun ⟨p1, p2, tgt⟩ ⟨(tgt, c2) :: fs, some false, some true⟩ .u2
        = ⟨(tgt, c2) :: aerase fs p2, some false, some true⟩ := by
      simp [stepRun, aerase_cons_ne fs tgt p2 c2 (Ne.symm h2)]
    have e4 : stepRun ⟨p1, p2, tgt⟩
        ⟨(tgt, c2) :: aerase fs p2, some false, some true⟩ .u1
        = ⟨(tgt, c2) :: aerase (aerase fs p2) p1, some false, some true⟩ := by
      simp [stepRun, aerase_cons_ne (aerase fs p2) tgt p1 c2 (Ne.symm h1)]
    have hrun : runSched ⟨p1, p2, tgt⟩ [Step.l2, Step.l1, Step.u2, Step.u1]
        ⟨fs, none, none⟩
        = ⟨(tgt, c2) :: aerase (aerase fs p2) p1, some false, some true⟩ := by
      simp only [runSched, List.foldl_cons, List.foldl_nil, e1, e2, e3, e4]
    rw [hrun]
    exact ⟨rfl, rfl, alookup_cons_self _ _ _⟩
  · right
    have e1 : stepRun ⟨p1, p2, tgt⟩ ⟨fs, none, none⟩ .l2
        = ⟨(tgt, c2) :: fs, none, some true⟩ := by
      simp [stepRun, doLink, ht, hp2]
    have e2 : stepRun ⟨p1, p2, tgt⟩ ⟨(tgt, c2) :: fs, none, some true⟩ .l1
        = ⟨(tgt, c2) :: fs, some false, some true⟩ := by
      simp [stepRun, doLink, alookup_cons_self]
    have e3 : stepRun ⟨p1, p2, tgt⟩ ⟨(tgt, c2) :: fs, some false, some true⟩ .u1
        = ⟨(tgt, c2) :: aerase fs p1, some false, some true⟩ := by
      simp [stepRun, aerase_cons_ne fs tgt p1 c2 (Ne.symm h1)]
    have e4 : stepRun ⟨p1, p2, tgt⟩
        ⟨(tgt, c2) :: aerase fs p1, some false, some true⟩ .u2
        = ⟨(tgt, c2) :: aerase (aerase fs p1) p2, some false, some true⟩ := by
      simp [stepRun, aerase_cons_ne (aerase fs p1) tgt p2 c2 (Ne.symm h2)]
    have hrun : runSched ⟨p1, p2, tgt⟩ [Step.l2, Step.l1, Step.u1, Step.u2]
        ⟨fs, none, none⟩
        = ⟨(tgt, c2) :: aerase (aerase fs p1) p2, some false, some true⟩ := by
      simp only [runSched, List.foldl_cons, List.foldl_nil, e1, e2, e3, e4]
    rw [hrun]
    exact ⟨rfl, rfl, alookup_cons_self _ _ _⟩

/-- Concrete instance of claim C3 at one interleaving of two publishes with
distinct scratch entries. -/
theorem c3_concurrent_publish_race_witness :
    ((runSched ⟨['a'], ['b'], ['t']⟩ [Step.l1, Step.l2, Step.u1, Step.u2]
        ⟨[(['a'], [1]), (['b'], [2])], none, none⟩).r1 = some true
      ∧ (runSched ⟨['a'], ['b'], ['t']⟩ [Step.l1, Step.l2, Step.u1, Step.u2]
          ⟨[(['a'], [1]), (['b'], [2])], none, none⟩).r2 = some false
      ∧ alookup (runSched ⟨['a'], ['b'], ['t']⟩ [Step.l1, Step.l2, Step.u1, Step.u2]
          ⟨[(['a'], [1]), (['b'], [2])], none, none⟩).fs ['t'] = some [1])
    ∨ ((runSched ⟨['a'], ['b'], ['t']⟩ [Step.l1, Step.l2, Step.u1, Step.u2]
        ⟨[(['a'], [1]), (['b'], [2])], none, none⟩).r1 = some false
      ∧ (runSched ⟨['a'], ['b'], ['t']⟩ [Step.l1, Step.l2, Step.u1, Step.u2]
          ⟨[(['a'], [1]), (['b'], [2])], none, none⟩).r2 = some true
      ∧ alookup (runSched ⟨['a'], ['b'], ['t']⟩ [Step.l1, Step.l2, Step.u1, Step.u2]
          ⟨[(['a'], [1]), (['b'], [2])], none, none⟩).fs ['t'] = some [2]) :=
  c3_concurrent_publish_race ['a'] ['b'] ['t'] [1] [2]
    [(['a'], [1]), (['b'], [2])] (by decide) (by decide) (by rfl) (by rfl)
    (by rfl) [Step.l1, Step.l2, Step.u1, Step.u2] (by decide)

end TmpfileUtil
